import Mathlib

/-!
Shallow embedding of the core data pipeline of `app.py` (stock-backtest):
weekly grouping of a daily OHLCV series, the per-week pullback calculation,
the incomplete-week filter, and the volume-profile binner.

Conventions of the embedding:
* Calendar dates are integers counting days since 1970-01-01 (a Thursday).
* Prices and volumes are rationals (exact arithmetic in place of floats).
* pandas' `NA` becomes `Option`.
* `pd.Grouper(freq='W')` bins a DatetimeIndex into weeks ending on Sunday,
  i.e. Monday-through-Sunday blocks; for day number `d` the block is
  identified by `(d + 3) / 7` (integer floor division; day `-3` was the
  Monday of the epoch week).  Two dates have equal `isocalendar()[:2]`
  (ISO year, ISO week) exactly when they lie in the same
  Monday-through-Sunday block, so ISO-week-pair equality is embedded as
  equality of `weekIndex`.
* `date.weekday()` (Monday = 0) becomes `(d + 3) % 7` since day 0 is a
  Thursday (= 3).
-/

/-- One row of the daily OHLCV frame `df_daily`.  Field names follow the
source's column names. -/
structure DailyBar where
  date   : ℤ
  Open   : ℚ
  High   : ℚ
  Low    : ℚ
  Close  : ℚ
  Volume : ℚ
deriving DecidableEq, Repr

/-- One entry of the `results` list built in the main loop of `app.py`
(keys 'Week Ending', 'Close (C)', 'Window Max (H)', 'Window Max Date',
'Window Start Date', 'Pullback Ratio'); `pd.NA` is `none`. -/
structure PullbackResult where
  weekEnding    : ℤ
  close         : ℚ
  windowMax     : Option ℚ
  windowMaxDate : Option ℤ
  windowStart   : ℤ
  ratio         : Option ℚ
deriving DecidableEq, Repr

/-- The Monday-through-Sunday week block containing day `d`
(`pd.Grouper(freq='W')` bins by these blocks; equal `isocalendar()[:2]`
pairs coincide with equal blocks). -/
def weekIndex (d : ℤ) : ℤ := (d + 3) / 7

/-- `date.weekday()`: Monday = 0, ..., Sunday = 6. -/
def weekday (d : ℤ) : ℤ := (d + 3) % 7

/-- `df_daily.groupby(pd.Grouper(freq='W'))`, restricted to the non-empty
groups in chronological order (the loop skips empty groups).  For a
date-ascending frame the non-empty weekly groups are exactly the maximal
runs of consecutive rows sharing a week block, which is what this
computes. -/
def weekly_groups : List DailyBar → List (List DailyBar)
  | [] => []
  | [b] => [[b]]
  | b :: c :: rest =>
    if weekIndex b.date = weekIndex c.date then
      (b :: (weekly_groups (c :: rest)).headD []) :: (weekly_groups (c :: rest)).tail
    else [b] :: weekly_groups (c :: rest)

/-- The lookback slice `df_daily.loc[(df_daily.index >= t_date - lookback)
& (df_daily.index <= t_date - 1)]`: the rows of the full daily frame whose
date lies in the closed interval `[T - L, T - 1]`. -/
def windowOf (df : List DailyBar) (L : ℤ) (t_date : ℤ) : List DailyBar :=
  df.filter (fun x => decide (t_date - L ≤ x.date) && decide (x.date ≤ t_date - 1))

/-- `window_df['High'].max()` (the value is only used on non-empty
windows; `0` is a junk value for `[]`). -/
def maxHigh : List DailyBar → ℚ
  | [] => 0
  | b :: bs => bs.foldl (fun m x => max m x.High) b.High

/-- One comparison step of a first-occurrence maximum scan: keep the
current candidate unless a strictly larger 'High' appears. -/
def pickMax (acc x : DailyBar) : DailyBar :=
  if x.High > acc.High then x else acc

/-- `window_df['High'].idxmax()`: the row of the first occurrence of the
maximal 'High' (pandas' `idxmax` returns the first maximal label). -/
def idxmaxBar : List DailyBar → Option DailyBar
  | [] => none
  | b :: bs => some (bs.foldl pickMax b)

/-- The body of the weekly loop of `app.py` given the reference row
`t_row = group.iloc[-1]`: computes the lookback window over the full frame
`df`, then H, H's date, and the pullback ratio with the `h_price != 0`
guard. -/
def mkRow (df : List DailyBar) (L : ℤ) (t : DailyBar) : PullbackResult :=
  match windowOf df L t.date with
  | [] =>
    { weekEnding := t.date, close := t.Close, windowMax := none,
      windowMaxDate := none, windowStart := t.date - L, ratio := none }
  | b :: bs =>
    let h_price := maxHigh (b :: bs)
    { weekEnding := t.date, close := t.Close, windowMax := some h_price,
      windowMaxDate := (idxmaxBar (b :: bs)).map (fun r => r.date),
      windowStart := t.date - L,
      ratio := if h_price ≠ 0 then some ((t.Close - h_price) / h_price) else none }

/-- The `results` list as built by the weekly loop, before the
incomplete-week filter: one row per non-empty weekly group, computed from
the group's last row (`group.iloc[-1]`). -/
def buildResults (df : List DailyBar) (L : ℤ) : List PullbackResult :=
  (weekly_groups df).filterMap (fun g => (g.getLast?).map (mkRow df L))

/-- The pop condition of the incomplete-week filter:
`is_same_week or (is_recent and is_incomplete_day)` for the last result
row, where `today` is the value of `datetime.now().date()`. -/
def incompleteCond (today : ℤ) (last : PullbackResult) : Bool :=
  (weekIndex last.weekEnding == weekIndex today)
    || ((today - last.weekEnding < 7) && (weekday last.weekEnding < 4))

/-- Lines 91-103 of `app.py`: if `results` is non-empty and the last row
triggers the condition, `results.pop()`. -/
def incompleteWeekFilter (today : ℤ) (results : List PullbackResult) :
    List PullbackResult :=
  match results.getLast? with
  | none => results
  | some last => if incompleteCond today last then results.dropLast else results

/-- The whole pullback pipeline of `app.py` (lines 40-103): build the
weekly result rows, then apply the incomplete-week filter.  `today` is the
value the source reads from the process clock (`datetime.now().date()`),
made explicit here. -/
def compute_pullback_table (df : List DailyBar) (L : ℤ) (today : ℤ) :
    List PullbackResult :=
  incompleteWeekFilter today (buildResults df L)

/-- `series.min()` for a price series (junk `0` on `[]`). -/
def listMin : List ℚ → ℚ
  | [] => 0
  | x :: xs => xs.foldl min x

/-- `series.max()` for a price series (junk `0` on `[]`). -/
def listMax : List ℚ → ℚ
  | [] => 0
  | x :: xs => xs.foldl max x

/-- `np.linspace(a, b, n)`: `n` evenly spaced points from `a` to `b`
inclusive (exact rational arithmetic). -/
def linspace (a b : ℚ) (n : ℕ) : List ℚ :=
  (List.range n).map (fun (j : ℕ) => a + (j : ℚ) * (b - a) / ((n : ℚ) - 1))

/-- `bins = np.linspace(price_min, price_max, 50)`. -/
def bins (prices : List ℚ) : List ℚ :=
  linspace (listMin prices) (listMax prices) 50

/-- `np.digitize(x, bins)` for ascending `bins` (default `right=False`):
the number of edges `e` with `e <= x` (numpy computes
`searchsorted(bins, x, side='right')`, so `bins[i-1] <= x < bins[i]`
yields `i`, and `x >= bins[-1]` yields `len(bins)`). -/
def digitize (x : ℚ) (edges : List ℚ) : ℕ :=
  edges.countP (fun e => decide (e ≤ x))

/-- One iteration of the accumulation loop:
`bin_idx = indices[i] - 1; if 0 <= bin_idx < len(vp_volumes):
vp_volumes[bin_idx] += volume_data.iloc[i]`. -/
def addToBin (vp : List ℚ) (idx : ℤ) (v : ℚ) : List ℚ :=
  if 0 ≤ idx ∧ idx < (vp.length : ℤ) then
    vp.set idx.toNat (vp.getD idx.toNat 0 + v)
  else vp

/-- One observation step of the volume-profile loop, with the bin edges
fixed. -/
def vpStep (edges : List ℚ) (vp : List ℚ) (pv : ℚ × ℚ) : List ℚ :=
  addToBin vp ((digitize pv.1 edges : ℤ) - 1) pv.2

/-- `vp_volumes` as computed by lines 166-182 of `app.py`: start from
`np.zeros(len(bins) - 1)` and accumulate each observation's volume into
the bin its digitized price selects (out-of-range indices are skipped). -/
def vp_volumes (prices volumes : List ℚ) : List ℚ :=
  (prices.zip volumes).foldl (vpStep (bins prices))
    (List.replicate ((bins prices).length - 1) 0)

/-! Concrete inputs used by witnesses and counterexamples.  Dates are days
since 1970-01-01: 19653..19657 are 2023-10-23 (Mon) .. 2023-10-27 (Fri),
19658 is Sat 2023-10-28, 19671 is Fri 2023-11-10, 19453 is Thu 2023-04-06
and 19457 is Mon 2023-04-10. -/

/-- A series with a single bar on Friday 2023-10-27 (Close 425, High 429). -/
def exFri : List DailyBar := [⟨19657, 0, 429, 0, 425, 0⟩]

/-- A result row whose week ends on Thursday 2023-04-06 (the week before
Good Friday 2023: no Friday bar). -/
def rowThu : PullbackResult := ⟨19453, 0, none, none, 19445, none⟩

/-- A result row whose week ends on Monday 2023-04-10. -/
def rowMon : PullbackResult := ⟨19457, 0, none, none, 19449, none⟩

/-- Two bars in one week whose High is 0 throughout, so the window of the
reference day is non-empty with a zero maximum high. -/
def exZeroHigh : List DailyBar := [⟨0, 0, 0, 0, 0, 0⟩, ⟨1, 0, 0, 0, 1, 0⟩]

/-- Two bars in one week, the first with High 2; the second day's window
is `[-7, 0]` and contains the first bar. -/
def exTwo : List DailyBar := [⟨0, 0, 2, 0, 3, 0⟩, ⟨1, 0, 1, 0, 1, 0⟩]

/-- Three bars spanning two calendar weeks (days 0, 1 in the epoch week;
day 7 in the following week). -/
def exWeeks : List DailyBar := [⟨0, 0, 1, 0, 1, 0⟩, ⟨1, 0, 2, 0, 1, 0⟩, ⟨7, 0, 3, 0, 1, 0⟩]

/-- Two bars sharing the maximal High 5, then a later reference bar whose
window contains both. -/
def exTie : List DailyBar := [⟨0, 0, 5, 0, 1, 0⟩, ⟨1, 0, 5, 0, 1, 0⟩, ⟨8, 0, 1, 0, 4, 0⟩]

/-- The single result row produced for `exFri` with lookback 8 (its
window `[19649, 19656]` holds no bars). -/
def rowFri : PullbackResult := ⟨19657, 425, none, none, 19649, none⟩

/-! ### Lemmas on `listMin`, `listMax` -/

theorem le_foldl_max (xs : List ℚ) (a : ℚ) : a ≤ xs.foldl max a := by
  induction xs generalizing a with
  | nil => exact le_refl a
  | cons x xs ih => exact le_trans (le_max_left a x) (ih (max a x))

theorem mem_le_foldl_max {x : ℚ} (xs : List ℚ) (a : ℚ) (hx : x ∈ xs) :
    x ≤ xs.foldl max a := by
  induction xs generalizing a with
  | nil => cases hx
  | cons y ys ih =>
    rcases List.mem_cons.mp hx with h | h
    · subst h; exact le_trans (le_max_right a x) (le_foldl_max ys _)
    · exact ih _ h

theorem foldl_min_le (xs : List ℚ) (a : ℚ) : xs.foldl min a ≤ a := by
  induction xs generalizing a with
  | nil => exact le_refl a
  | cons x xs ih => exact le_trans (ih (min a x)) (min_le_left a x)

theorem foldl_min_le_mem {x : ℚ} (xs : List ℚ) (a : ℚ) (hx : x ∈ xs) :
    xs.foldl min a ≤ x := by
  induction xs generalizing a with
  | nil => cases hx
  | cons y ys ih =>
    rcases List.mem_cons.mp hx with h | h
    · subst h; exact le_trans (foldl_min_le ys _) (min_le_right a x)
    · exact ih _ h

theorem le_listMax {x : ℚ} {l : List ℚ} (hx : x ∈ l) : x ≤ listMax l := by
  cases l with
  | nil => cases hx
  | cons y ys =>
    rcases List.mem_cons.mp hx with h | h
    · subst h; exact le_foldl_max ys x
    · exact mem_le_foldl_max ys y h

theorem listMin_le {x : ℚ} {l : List ℚ} (hx : x ∈ l) : listMin l ≤ x := by
  cases l with
  | nil => cases hx
  | cons y ys =>
    rcases List.mem_cons.mp hx with h | h
    · subst h; exact foldl_min_le ys x
    · exact foldl_min_le_mem ys y h

theorem listMin_le_listMax {l : List ℚ} (h : l ≠ []) : listMin l ≤ listMax l := by
  cases l with
  | nil => exact absurd rfl h
  | cons y ys => exact le_trans (foldl_min_le ys y) (le_foldl_max ys y)

theorem foldl_max_const {c : ℚ} (xs : List ℚ) (hall : ∀ p ∈ xs, p = c) :
    xs.foldl max c = c := by
  induction xs with
  | nil => rfl
  | cons y ys ih =>
    have hy : y = c := hall y (List.mem_cons_self y ys)
    rw [List.foldl_cons, hy, max_self]
    exact ih (fun p hp => hall p (List.mem_cons_of_mem y hp))

theorem listMax_const {c : ℚ} {l : List ℚ} (hne : l ≠ []) (hall : ∀ p ∈ l, p = c) :
    listMax l = c := by
  cases l with
  | nil => exact absurd rfl hne
  | cons y ys =>
    have hy : y = c := hall y (List.mem_cons_self y ys)
    subst hy
    exact foldl_max_const ys (fun p hp => hall p (List.mem_cons_of_mem y hp))

theorem foldl_min_const {c : ℚ} (xs : List ℚ) (hall : ∀ p ∈ xs, p = c) :
    xs.foldl min c = c := by
  induction xs with
  | nil => rfl
  | cons y ys ih =>
    have hy : y = c := hall y (List.mem_cons_self y ys)
    rw [List.foldl_cons, hy, min_self]
    exact ih (fun p hp => hall p (List.mem_cons_of_mem y hp))

theorem listMin_const {c : ℚ} {l : List ℚ} (hne : l ≠ []) (hall : ∀ p ∈ l, p = c) :
    listMin l = c := by
  cases l with
  | nil => exact absurd rfl hne
  | cons y ys =>
    have hy : y = c := hall y (List.mem_cons_self y ys)
    subst hy
    exact foldl_min_const ys (fun p hp => hall p (List.mem_cons_of_mem y hp))

/-! ### Lemmas on the bin edges -/

theorem bins_length (prices : List ℚ) : (bins prices).length = 50 := by
  unfold bins linspace
  rw [List.length_map, List.length_range]

theorem min_mem_bins (prices : List ℚ) : listMin prices ∈ bins prices := by
  unfold bins linspace
  refine List.mem_map.mpr ⟨0, by decide, ?_⟩
  norm_num

theorem listMax_mem_bins (prices : List ℚ) : listMax prices ∈ bins prices := by
  unfold bins linspace
  refine List.mem_map.mpr ⟨49, by decide, ?_⟩
  push_cast
  rw [show (50 : ℚ) - 1 = 49 by norm_num]
  field_simp

theorem mem_bins_le {prices : List ℚ} (hne : prices ≠ []) {e : ℚ}
    (he : e ∈ bins prices) : e ≤ listMax prices := by
  unfold bins linspace at he
  obtain ⟨j, hjmem, rfl⟩ := List.mem_map.mp he
  have hj : j < 50 := List.mem_range.mp hjmem
  have hj49 : (j : ℚ) ≤ 49 := by
    have : j ≤ 49 := by omega
    exact_mod_cast this
  have h0 : (0 : ℚ) ≤ listMax prices - listMin prices :=
    sub_nonneg.mpr (listMin_le_listMax hne)
  have hmul : (j : ℚ) * (listMax prices - listMin prices) ≤
      49 * (listMax prices - listMin prices) :=
    mul_le_mul_of_nonneg_right hj49 h0
  push_cast
  rw [show (50 : ℚ) - 1 = 49 by norm_num]
  have key : (j : ℚ) * (listMax prices - listMin prices) / 49 ≤
      listMax prices - listMin prices := by
    rw [div_le_iff₀ (by norm_num : (0:ℚ) < 49)]
    linarith
  linarith

/-! ### Lemmas on `digitize` -/

theorem one_le_digitize {x : ℚ} {prices : List ℚ} (hx : x ∈ prices) :
    1 ≤ digitize x (bins prices) := by
  have hle : listMin prices ≤ x := listMin_le hx
  exact List.countP_pos_iff.mpr ⟨listMin prices, min_mem_bins prices, by simpa using hle⟩

theorem digitize_le_50 (x : ℚ) (prices : List ℚ) : digitize x (bins prices) ≤ 50 := by
  have := List.countP_le_length (fun e => decide (e ≤ x)) (l := bins prices)
  rwa [bins_length] at this

theorem digitize_le_49 {x : ℚ} {prices : List ℚ}
    (hx : x < listMax prices) : digitize x (bins prices) ≤ 49 := by
  by_contra hcon
  have h50 : digitize x (bins prices) = 50 :=
    le_antisymm (digitize_le_50 x prices) (by omega)
  have hall : ∀ e ∈ bins prices, (fun e => decide (e ≤ x)) e = true := by
    apply List.countP_eq_length.mp
    rw [bins_length]
    exact h50
  have := hall (listMax prices) (listMax_mem_bins prices)
  simp at this
  exact absurd hx (not_lt.mpr this)

theorem digitize_eq_50 {x : ℚ} {prices : List ℚ} (hne : prices ≠ [])
    (hx : listMax prices ≤ x) : digitize x (bins prices) = 50 := by
  have : List.countP (fun e => decide (e ≤ x)) (bins prices) = (bins prices).length :=
    List.countP_eq_length.mpr
      (fun e he => by simpa using le_trans (mem_bins_le hne he) hx)
  rw [digitize, this, bins_length]

/-! ### Sum bookkeeping for the accumulation loop -/

theorem sum_set_add (l : List ℚ) (i : ℕ) (v : ℚ) (h : i < l.length) :
    (l.set i (l.getD i 0 + v)).sum = l.sum + v := by
  induction l generalizing i with
  | nil => simp at h
  | cons x xs ih =>
    cases i with
    | zero => simp; ring
    | succ n =>
      have hn : n < xs.length := by simpa using h
      simp only [List.set_cons_succ, List.getD_cons_succ, List.sum_cons]
      rw [ih n hn]
      ring

theorem length_addToBin (vp : List ℚ) (idx : ℤ) (v : ℚ) :
    (addToBin vp idx v).length = vp.length := by
  unfold addToBin
  split <;> simp

theorem sum_addToBin (vp : List ℚ) (idx : ℤ) (v : ℚ) :
    (addToBin vp idx v).sum =
      vp.sum + (if 0 ≤ idx ∧ idx < (vp.length : ℤ) then v else 0) := by
  unfold addToBin
  split
  case isTrue h =>
    rw [sum_set_add vp idx.toNat v (by omega)]
  case isFalse h =>
    rw [add_zero]

theorem length_foldl_vpStep (e : List ℚ) (l : List (ℚ × ℚ)) (vp : List ℚ) :
    (l.foldl (vpStep e) vp).length = vp.length := by
  induction l generalizing vp with
  | nil => rfl
  | cons pv rest ih =>
    rw [List.foldl_cons, ih, vpStep, length_addToBin]

theorem sum_foldl_vpStep (e : List ℚ) (l : List (ℚ × ℚ)) (vp : List ℚ) :
    (l.foldl (vpStep e) vp).sum = vp.sum +
      (l.map (fun pv =>
        if 0 ≤ (digitize pv.1 e : ℤ) - 1 ∧ (digitize pv.1 e : ℤ) - 1 < (vp.length : ℤ)
        then pv.2 else 0)).sum := by
  induction l generalizing vp with
  | nil => simp
  | cons pv rest ih =>
    rw [List.foldl_cons, ih]
    have hlen : (vpStep e vp pv).length = vp.length := by
      rw [vpStep, length_addToBin]
    rw [hlen, vpStep, sum_addToBin, List.map_cons, List.sum_cons]
    ring

/-- The with-bins sum of the accumulated volumes: every observation whose
price is strictly below the series maximum contributes its volume; the
observations at the maximum are skipped by the out-of-range guard. -/
theorem vp_sum_eq (prices volumes : List ℚ) (hne : prices ≠ []) :
    (vp_volumes prices volumes).sum =
      (((prices.zip volumes).filter
          (fun pv => decide (pv.1 < listMax prices))).map Prod.snd).sum := by
  unfold vp_volumes
  rw [sum_foldl_vpStep]
  have hlen : (List.replicate ((bins prices).length - 1) (0:ℚ)).length = 49 := by
    rw [List.length_replicate, bins_length]
  have hsum0 : (List.replicate ((bins prices).length - 1) (0:ℚ)).sum = 0 := by
    simp
  rw [hlen, hsum0, zero_add]
  have hcongr : ∀ pv ∈ prices.zip volumes,
      (if 0 ≤ (digitize pv.1 (bins prices) : ℤ) - 1 ∧
          (digitize pv.1 (bins prices) : ℤ) - 1 < ((49:ℕ) : ℤ) then pv.2 else 0) =
      (if pv.1 < listMax prices then pv.2 else 0) := by
    rintro ⟨p, v⟩ hpv
    have hp : p ∈ prices := (List.of_mem_zip hpv).1
    by_cases hlt : p < listMax prices
    · have h1 := one_le_digitize hp
      have h2 := digitize_le_49 hlt
      have hcond : 0 ≤ (digitize p (bins prices) : ℤ) - 1 ∧
          (digitize p (bins prices) : ℤ) - 1 < ((49:ℕ) : ℤ) := by
        constructor <;> omega
      rw [if_pos hcond, if_pos hlt]
    · have hge : listMax prices ≤ p := not_lt.mp hlt
      have h50 := digitize_eq_50 hne hge
      have hcond : ¬(0 ≤ (digitize p (bins prices) : ℤ) - 1 ∧
          (digitize p (bins prices) : ℤ) - 1 < ((49:ℕ) : ℤ)) := by
        rw [h50]
        intro hc
        omega
      rw [if_neg hcond, if_neg hlt]
  rw [List.map_congr_left hcongr]
  rw [List.sum_map_ite (fun pv => pv.1 < listMax prices) Prod.snd (fun _ => 0)]
  simp

/-! ### The degenerate constant-price series -/

theorem bins_const {c : ℚ} {prices : List ℚ} (hne : prices ≠ [])
    (hall : ∀ p ∈ prices, p = c) : bins prices = List.replicate 50 c := by
  rw [List.eq_replicate_iff]
  refine ⟨bins_length prices, ?_⟩
  intro e he
  unfold bins linspace at he
  obtain ⟨j, _, rfl⟩ := List.mem_map.mp he
  rw [listMin_const hne hall, listMax_const hne hall, sub_self, mul_zero,
    zero_div, add_zero]

theorem digitize_const (c : ℚ) : digitize c (List.replicate 50 c) = 50 := by
  rw [digitize, List.countP_replicate]
  simp

theorem vp_volumes_const {c : ℚ} {prices : List ℚ} (volumes : List ℚ)
    (hne : prices ≠ []) (hall : ∀ p ∈ prices, p = c) :
    vp_volumes prices volumes = List.replicate 49 0 := by
  unfold vp_volumes
  rw [bins_const hne hall, List.length_replicate]
  have : ∀ (l : List (ℚ × ℚ)), (∀ pv ∈ l, pv.1 = c) →
      l.foldl (vpStep (List.replicate 50 c)) (List.replicate (50 - 1) (0:ℚ)) =
        List.replicate (50 - 1) 0 := by
    intro l
    induction l with
    | nil => intro _; rfl
    | cons pv rest ih =>
      intro hl
      have hpc : pv.1 = c := hl pv (List.mem_cons_self pv rest)
      have hstep : vpStep (List.replicate 50 c) (List.replicate (50 - 1) (0:ℚ)) pv =
          List.replicate (50 - 1) 0 := by
        unfold vpStep addToBin
        rw [hpc, digitize_const]
        simp
      rw [List.foldl_cons, hstep]
      exact ih (fun q hq => hl q (List.mem_cons_of_mem pv hq))
  exact this (prices.zip volumes)
    (fun pv hpv => hall pv.1 (List.of_mem_zip hpv).1)

/-! ### Lemmas on the weekly grouping -/

theorem weekIndex_mono {d e : ℤ} (h : d ≤ e) : weekIndex d ≤ weekIndex e :=
  Int.ediv_le_ediv (by norm_num) (by omega)

theorem lt_of_weekIndex_lt {d e : ℤ} (h : weekIndex d < weekIndex e) : d < e := by
  by_contra hc
  exact absurd (weekIndex_mono (not_lt.mp hc)) (not_le.mpr h)

theorem wg_first_head (b : DailyBar) (rest : List DailyBar) :
    ∃ t gs, weekly_groups (b :: rest) = (b :: t) :: gs := by
  induction rest generalizing b with
  | nil => exact ⟨[], [], rfl⟩
  | cons c rest2 ih =>
    obtain ⟨t, gs, h⟩ := ih c
    by_cases hw : weekIndex b.date = weekIndex c.date
    · refine ⟨c :: t, gs, ?_⟩
      simp only [weekly_groups]
      rw [h, if_pos hw, List.headD_cons, List.tail_cons]
    · refine ⟨[], (c :: t) :: gs, ?_⟩
      simp only [weekly_groups]
      rw [h, if_neg hw]

theorem wg_flatten (s : List DailyBar) : (weekly_groups s).flatten = s := by
  induction s with
  | nil => rfl
  | cons b rest ih =>
    cases rest with
    | nil => rfl
    | cons c rest2 =>
      obtain ⟨t, gs, h⟩ := wg_first_head c rest2
      rw [h] at ih
      simp only [List.flatten_cons, List.cons_append] at ih
      have htail : t ++ gs.flatten = rest2 := by
        have := List.cons.injEq c (t ++ gs.flatten) c rest2 ▸ ih
        simpa using ih
      simp only [weekly_groups]
      rw [h]
      by_cases hw : weekIndex b.date = weekIndex c.date
      · rw [if_pos hw, List.headD_cons, List.tail_cons]
        simp [htail]
      · rw [if_neg hw]
        simp [htail]

theorem wg_ne_nil (s : List DailyBar) : ∀ g ∈ weekly_groups s, g ≠ [] := by
  induction s with
  | nil => intro g hg; cases hg
  | cons b rest ih =>
    cases rest with
    | nil =>
      intro g hg
      simp only [weekly_groups, List.mem_singleton] at hg
      subst hg
      simp
    | cons c rest2 =>
      obtain ⟨t, gs, h⟩ := wg_first_head c rest2
      intro g hg
      simp only [weekly_groups] at hg
      rw [h] at hg
      by_cases hw : weekIndex b.date = weekIndex c.date
      · rw [if_pos hw, List.headD_cons, List.tail_cons] at hg
        rcases List.mem_cons.mp hg with rfl | hg2
        · simp
        · exact ih g (by rw [h]; exact List.mem_cons_of_mem _ hg2)
      · rw [if_neg hw] at hg
        rcases List.mem_cons.mp hg with rfl | hg2
        · simp
        · exact ih g (by rw [h]; exact hg2)

theorem wg_sameWeek (s : List DailyBar) :
    ∀ g ∈ weekly_groups s, ∃ w, ∀ x ∈ g, weekIndex x.date = w := by
  induction s with
  | nil => intro g hg; cases hg
  | cons b rest ih =>
    cases rest with
    | nil =>
      intro g hg
      simp only [weekly_groups, List.mem_singleton] at hg
      subst hg
      exact ⟨weekIndex b.date, by simp⟩
    | cons c rest2 =>
      obtain ⟨t, gs, h⟩ := wg_first_head c rest2
      intro g hg
      simp only [weekly_groups] at hg
      rw [h] at hg
      by_cases hw : weekIndex b.date = weekIndex c.date
      · rw [if_pos hw, List.headD_cons, List.tail_cons] at hg
        rcases List.mem_cons.mp hg with rfl | hg2
        · obtain ⟨w, hwall⟩ := ih (c :: t) (by rw [h]; exact List.mem_cons_self _ _)
          refine ⟨w, ?_⟩
          intro x hx
          rcases List.mem_cons.mp hx with rfl | hx2
          · rw [hw]
            exact hwall c (List.mem_cons_self _ _)
          · exact hwall x hx2
        · exact ih g (by rw [h]; exact List.mem_cons_of_mem _ hg2)
      · rw [if_neg hw] at hg
        rcases List.mem_cons.mp hg with rfl | hg2
        · exact ⟨weekIndex b.date, by simp⟩
        · exact ih g (by rw [h]; exact hg2)

theorem wg_weeks_lt (s : List DailyBar)
    (hs : s.Pairwise (fun a b => a.date < b.date)) :
    (weekly_groups s).Pairwise
      (fun g₁ g₂ => ∀ x ∈ g₁, ∀ y ∈ g₂, weekIndex x.date < weekIndex y.date) := by
  induction s with
  | nil => simp [weekly_groups]
  | cons b rest ih =>
    cases rest with
    | nil => simp [weekly_groups]
    | cons c rest2 =>
      have htail := ih hs.of_cons
      obtain ⟨t, gs, h⟩ := wg_first_head c rest2
      have hbc : b.date < c.date :=
        (List.pairwise_cons.mp hs).1 c (List.mem_cons_self _ _)
      rw [h] at htail
      simp only [weekly_groups]
      rw [h]
      by_cases hw : weekIndex b.date = weekIndex c.date
      · rw [if_pos hw, List.headD_cons, List.tail_cons]
        rw [List.pairwise_cons] at htail ⊢
        obtain ⟨hcts, hgs⟩ := htail
        refine ⟨?_, hgs⟩
        intro g' hg' x hx y hy
        rcases List.mem_cons.mp hx with rfl | hx2
        · rw [hw]
          exact hcts g' hg' c (List.mem_cons_self _ _) y hy
        · exact hcts g' hg' x hx2 y hy
      · rw [if_neg hw]
        rw [List.pairwise_cons]
        refine ⟨?_, htail⟩
        intro g' hg' x hx y hy
        have hxb : x = b := by simpa using hx
        subst hxb
        have hble : weekIndex x.date < weekIndex c.date :=
          lt_of_le_of_ne (weekIndex_mono (le_of_lt hbc)) hw
        rcases List.mem_cons.mp hg' with rfl | hg2
        · obtain ⟨w, hwall⟩ := wg_sameWeek (c :: rest2) (c :: t)
            (by rw [h]; exact List.mem_cons_self _ _)
          rw [hwall y hy, ← hwall c (List.mem_cons_self _ _)]
          exact hble
        · have := (List.pairwise_cons.mp htail).1 g' hg2 c (List.mem_cons_self _ _) y hy
          exact lt_trans hble this

/-! ### Projections of `mkRow` -/

theorem mkRow_weekEnding (df : List DailyBar) (L : ℤ) (t : DailyBar) :
    (mkRow df L t).weekEnding = t.date := by
  cases h : windowOf df L t.date <;> simp [mkRow, h]

theorem mkRow_close (df : List DailyBar) (L : ℤ) (t : DailyBar) :
    (mkRow df L t).close = t.Close := by
  cases h : windowOf df L t.date <;> simp [mkRow, h]

theorem mkRow_windowStart (df : List DailyBar) (L : ℤ) (t : DailyBar) :
    (mkRow df L t).windowStart = t.date - L := by
  cases h : windowOf df L t.date <;> simp [mkRow, h]

/-! ### Last elements of sorted lists -/

theorem mem_of_getLast?_eq {α : Type} {g : List α} {b : α}
    (h : g.getLast? = some b) : b ∈ g := by
  cases g with
  | nil => cases h
  | cons x xs =>
    have hne : x :: xs ≠ [] := by simp
    rw [List.getLast?_eq_getLast _ hne] at h
    simp only [Option.some.injEq] at h
    subst h
    exact List.getLast_mem hne

theorem last_date_max : ∀ (g : List DailyBar) (b : DailyBar),
    g.Pairwise (fun a b => a.date < b.date) → g.getLast? = some b →
    ∀ x ∈ g, x.date ≤ b.date := by
  intro g
  induction g with
  | nil => intro b _ h; cases h
  | cons y ys ih =>
    intro b hp h x hx
    cases ys with
    | nil =>
      simp only [List.getLast?_singleton, Option.some.injEq] at h
      subst h
      simp only [List.mem_singleton] at hx
      subst hx
      exact le_refl _
    | cons z zs =>
      rw [List.getLast?_cons_cons] at h
      rcases List.mem_cons.mp hx with rfl | hx2
      · have hb : b ∈ z :: zs := mem_of_getLast?_eq h
        exact le_of_lt ((List.pairwise_cons.mp hp).1 b hb)
      · exact ih b hp.of_cons h x hx2

theorem wg_groups_sorted (s : List DailyBar)
    (hs : s.Pairwise (fun a b => a.date < b.date)) :
    ∀ g ∈ weekly_groups s, g.Pairwise (fun a b => a.date < b.date) := by
  have hfl : ((weekly_groups s).flatten).Pairwise (fun a b => a.date < b.date) := by
    rw [wg_flatten]
    exact hs
  exact (List.pairwise_flatten.mp hfl).1

/-! ### The first-occurrence maximum scan -/

theorem foldl_pickMax_high : ∀ (bs : List DailyBar) (b : DailyBar),
    (bs.foldl pickMax b).High = bs.foldl (fun m x => max m x.High) b.High := by
  intro bs
  induction bs with
  | nil => intro b; rfl
  | cons x rest ih =>
    intro b
    rw [List.foldl_cons, List.foldl_cons, ih]
    have hpick : (pickMax b x).High = max b.High x.High := by
      unfold pickMax
      by_cases hx : x.High > b.High
      · rw [if_pos hx, max_eq_right hx.le]
      · rw [if_neg hx, max_eq_left (not_lt.mp hx)]
    rw [hpick]

theorem foldl_pickMax_decomp : ∀ (bs : List DailyBar) (b : DailyBar),
    ∃ l₁ l₂, b :: bs = l₁ ++ (bs.foldl pickMax b) :: l₂
      ∧ (∀ x ∈ l₁, x.High < (bs.foldl pickMax b).High)
      ∧ (∀ x ∈ l₂, x.High ≤ (bs.foldl pickMax b).High) := by
  intro bs
  induction bs with
  | nil =>
    intro b
    exact ⟨[], [], rfl, by simp, by simp⟩
  | cons x rest ih =>
    intro b
    rw [List.foldl_cons]
    obtain ⟨l₁, l₂, heq, hlt, hle⟩ := ih (pickMax b x)
    by_cases hx : x.High > b.High
    · have hpx : pickMax b x = x := by rw [pickMax, if_pos hx]
      rw [hpx] at heq hlt hle ⊢
      cases l₁ with
      | nil =>
        simp only [List.nil_append] at heq
        refine ⟨[b], l₂, ?_, ?_, hle⟩
        · rw [List.singleton_append, ← heq]
        · intro z hz
          simp only [List.mem_singleton] at hz
          subst hz
          have hxr : x.High ≤ (rest.foldl pickMax x).High := by
            have hxmem : x ∈ x :: rest := List.mem_cons_self _ _
            rw [heq] at hxmem
            rcases List.mem_cons.mp hxmem with h1 | h2
            · rw [← h1]
            · exact hle x h2
          exact lt_of_lt_of_le hx hxr
      | cons a l₁2 =>
        simp only [List.cons_append, List.cons.injEq] at heq
        obtain ⟨rfl, heq2⟩ := heq
        refine ⟨b :: x :: l₁2, l₂, ?_, ?_, hle⟩
        · rw [List.cons_append, List.cons_append]
          exact congrArg (fun u => b :: x :: u) heq2
        · intro z hz
          rcases List.mem_cons.mp hz with rfl | hz2
          · exact lt_trans hx (hlt x (List.mem_cons_self _ _))
          · exact hlt z hz2
    · have hpx : pickMax b x = b := by rw [pickMax, if_neg hx]
      rw [hpx] at heq hlt hle ⊢
      cases l₁ with
      | nil =>
        simp only [List.nil_append, List.cons.injEq] at heq
        obtain ⟨hrb, hl₂⟩ := heq
        refine ⟨[], x :: l₂, ?_, by simp, ?_⟩
        · rw [List.nil_append, ← hrb, hl₂]
        · intro z hz
          rcases List.mem_cons.mp hz with rfl | hz2
          · rw [← hrb]
            exact not_lt.mp hx
          · exact hle z hz2
      | cons a l₁2 =>
        simp only [List.cons_append, List.cons.injEq] at heq
        obtain ⟨rfl, heq2⟩ := heq
        refine ⟨b :: x :: l₁2, l₂, ?_, ?_, hle⟩
        · rw [List.cons_append, List.cons_append]
          exact congrArg (fun u => b :: x :: u) heq2
        · intro z hz
          rcases List.mem_cons.mp hz with rfl | hz2
          · exact hlt z (List.mem_cons_self _ _)
          · rcases List.mem_cons.mp hz2 with rfl | hz3
            · exact lt_of_le_of_lt (not_lt.mp hx) (hlt b (List.mem_cons_self _ _))
            · exact hlt z (List.mem_cons_of_mem b hz3)

/-! ### Claim theorems -/

/-- C1 is false as stated: for the two-observation series with prices
`[0, 49]` and volumes `[1, 1]`, the accumulated bin volumes sum to `1`
while the input volumes sum to `2`.  The observation at the maximum price
digitizes to `50` (one past the last edge), so its volume is dropped by
the `0 <= bin_idx < len(vp_volumes)` guard: the final bin is not closed
at its right end. -/
theorem C1_counterexample :
    (vp_volumes [0, 49] [1, 1]).sum ≠ ([(1:ℚ), 1]).sum
    ∧ digitize 49 (bins [0, 49]) = 50 := by
  have hmax : listMax [(0:ℚ), 49] = 49 := by decide
  constructor
  · have h1 : (vp_volumes [0, 49] [1, 1]).sum = 1 := by
      rw [vp_sum_eq [0, 49] [1, 1] (by simp)]
      rw [hmax]
      norm_num [List.zip, List.zipWith, List.filter, List.sum_cons]
    rw [h1]
    norm_num
  · have : listMax [(0:ℚ), 49] ≤ 49 := le_of_eq hmax
    exact digitize_eq_50 (by simp) this

/-- C1 (amended): for every pair of equal-length price/volume series with
a non-empty price list, `len(bin_volumes) = len(bin_edges) - 1` (= 49)
holds, every observation priced strictly below the maximum digitizes into
exactly one of the 49 bins (index 1..49), every observation at the
maximum digitizes to 50 and is dropped, and the accumulated sum equals
the sum of the volumes of the observations priced strictly below the
maximum (not the full input sum). -/
theorem C1_amended (prices volumes : List ℚ) (hne : prices ≠ [])
    (hlen : prices.length = volumes.length) :
    (vp_volumes prices volumes).length = (bins prices).length - 1
    ∧ (bins prices).length = 50
    ∧ (∀ pv ∈ prices.zip volumes, pv.1 < listMax prices →
        1 ≤ digitize pv.1 (bins prices) ∧ digitize pv.1 (bins prices) ≤ 49)
    ∧ (∀ pv ∈ prices.zip volumes, pv.1 = listMax prices →
        digitize pv.1 (bins prices) = 50)
    ∧ (vp_volumes prices volumes).sum =
        (((prices.zip volumes).filter
            (fun pv => decide (pv.1 < listMax prices))).map Prod.snd).sum := by
  refine ⟨?_, bins_length prices, ?_, ?_, vp_sum_eq prices volumes hne⟩
  · unfold vp_volumes
    rw [length_foldl_vpStep, List.length_replicate]
  · intro pv hpv hlt
    exact ⟨one_le_digitize (List.of_mem_zip hpv).1, digitize_le_49 hlt⟩
  · intro pv hpv heq
    exact digitize_eq_50 hne (le_of_eq heq.symm)

/-- C1 witness: the amended statement instantiated at prices `[0, 49]`
and volumes `[1, 1]`. -/
theorem C1_witness :
    ([(0:ℚ), 49] ≠ ([] : List ℚ))
    ∧ ([(0:ℚ), 49] : List ℚ).length = ([(1:ℚ), 1] : List ℚ).length
    ∧ ((vp_volumes [0, 49] [1, 1]).length = (bins [0, 49]).length - 1
      ∧ (bins [0, 49]).length = 50
      ∧ (∀ pv ∈ ([(0:ℚ), 49]).zip [(1:ℚ), 1], pv.1 < listMax [0, 49] →
          1 ≤ digitize pv.1 (bins [0, 49]) ∧ digitize pv.1 (bins [0, 49]) ≤ 49)
      ∧ (∀ pv ∈ ([(0:ℚ), 49]).zip [(1:ℚ), 1], pv.1 = listMax [0, 49] →
          digitize pv.1 (bins [0, 49]) = 50)
      ∧ (vp_volumes [0, 49] [1, 1]).sum =
          (((([(0:ℚ), 49]).zip [(1:ℚ), 1]).filter
              (fun pv => decide (pv.1 < listMax [0, 49]))).map Prod.snd).sum) :=
  ⟨by simp, by simp, C1_amended [0, 49] [1, 1] (by simp) (by simp)⟩

/-- C2 is false as stated: the pipeline's current date is the process-wide
wall clock (`today = datetime.now().date()` in the source), and the output
depends on it.  With the single-bar series `exFri` (one bar on Friday
2023-10-27) and lookback 8, running when the clock reads Saturday
2023-10-28 removes the only row (same ISO week), while running when it
reads Friday 2023-11-10 keeps it. -/
theorem C2_counterexample :
    compute_pullback_table exFri 8 19658 ≠ compute_pullback_table exFri 8 19671 := by
  decide

/-- C2 (amended): the pipeline is deterministic given the series, the
lookback and the wall-clock date it reads: modelling that date as the
explicit argument `today`, the output is a function of the three inputs,
and `today` only enters through the final filter, so the result is always
the unfiltered table or that table without its last row. -/
theorem C2_amended (df : List DailyBar) (L today : ℤ) :
    compute_pullback_table df L today = buildResults df L ∨
    compute_pullback_table df L today = (buildResults df L).dropLast := by
  unfold compute_pullback_table incompleteWeekFilter
  split
  · exact Or.inl rfl
  · split
    · exact Or.inr rfl
    · exact Or.inl rfl

/-- C3 is false as stated (the idempotence conjunct fails): with the table
whose last two rows end on Thursday 2023-04-06 and Monday 2023-04-10, and
`now` = Monday 2023-04-10, the first application removes the Monday row
(same ISO week) and a second application also removes the Thursday row
(4 days old, weekday Thursday < 4). -/
theorem C3_counterexample :
    incompleteWeekFilter 19457 (incompleteWeekFilter 19457 [rowThu, rowMon]) ≠
      incompleteWeekFilter 19457 [rowThu, rowMon] := by
  decide

/-- C3 (amended): on any non-empty ResultTable the filter removes at most
the final row and never an earlier one, and removes it exactly when the
last row's week_ending lies in the same Monday-to-Sunday (ISO) week as
`now`, or is within 7 days of `now` with weekday Monday-Thursday; on the
empty table it is a no-op.  (Idempotence does not hold in general.) -/
theorem C3_amended (t : List PullbackResult) (now : ℤ) (last : PullbackResult)
    (h : t.getLast? = some last) :
    (incompleteWeekFilter now t = t ∨ incompleteWeekFilter now t = t.dropLast)
    ∧ (incompleteWeekFilter now t = t.dropLast ↔
        (weekIndex last.weekEnding = weekIndex now ∨
          (now - last.weekEnding < 7 ∧ weekday last.weekEnding < 4)))
    ∧ incompleteWeekFilter now ([] : List PullbackResult) = [] := by
  have htne : t ≠ [] := List.ne_nil_of_mem (mem_of_getLast?_eq h)
  have hdne : t.dropLast ≠ t := by
    intro he
    have hl := congrArg List.length he
    rw [List.length_dropLast] at hl
    have hpos : 0 < t.length := List.length_pos.mpr htne
    omega
  refine ⟨?_, ?_, rfl⟩ <;> unfold incompleteWeekFilter <;> rw [h] <;> dsimp only
  · by_cases hc : incompleteCond now last = true
    · rw [if_pos hc]; exact Or.inr rfl
    · rw [if_neg hc]; exact Or.inl rfl
  · by_cases hc : incompleteCond now last = true
    · rw [if_pos hc]
      simp only [incompleteCond, Bool.or_eq_true, Bool.and_eq_true, beq_iff_eq,
        decide_eq_true_eq] at hc
      exact ⟨fun _ => hc, fun _ => rfl⟩
    · rw [if_neg hc]
      simp only [incompleteCond, Bool.or_eq_true, Bool.and_eq_true, beq_iff_eq,
        decide_eq_true_eq] at hc
      constructor
      · intro he; exact absurd he.symm hdne
      · intro hcond; exact absurd hcond hc

/-- C3 witness: the amended statement instantiated at the two-row table
`[rowThu, rowMon]` with `now` = Monday 2023-04-10. -/
theorem C3_witness :
    ([rowThu, rowMon].getLast? = some rowMon)
    ∧ ((incompleteWeekFilter 19457 [rowThu, rowMon] = [rowThu, rowMon] ∨
        incompleteWeekFilter 19457 [rowThu, rowMon] = [rowThu, rowMon].dropLast)
      ∧ (incompleteWeekFilter 19457 [rowThu, rowMon] = [rowThu, rowMon].dropLast ↔
          (weekIndex rowMon.weekEnding = weekIndex 19457 ∨
            (19457 - rowMon.weekEnding < 7 ∧ weekday rowMon.weekEnding < 4)))
      ∧ incompleteWeekFilter 19457 ([] : List PullbackResult) = []) :=
  ⟨by decide, C3_amended [rowThu, rowMon] 19457 rowMon (by decide)⟩

/-- C4 is false as stated: in `exZeroHigh` the reference day's window is
non-empty but its maximum High is 0, so `windowMax` and `windowMaxDate`
are present while `ratio` is absent — the three derived fields are not
absent or present together. -/
theorem C4_counterexample :
    (buildResults exZeroHigh 8).map
        (fun r => (r.windowMax.isSome, r.windowMaxDate.isSome, r.ratio.isSome)) =
      [(true, true, false)] := by
  decide

/-- C4 (amended): `windowMax` and `windowMaxDate` are absent exactly when
the lookback window has zero bars, but `ratio` is absent exactly when the
window has zero bars OR the window's maximum High equals 0 (the
divide-by-zero guard), so the three fields need not be absent together. -/
theorem C4_amended (df : List DailyBar) (L : ℤ) (t : DailyBar) :
    ((mkRow df L t).windowMax = none ↔ windowOf df L t.date = [])
    ∧ ((mkRow df L t).windowMaxDate = none ↔ windowOf df L t.date = [])
    ∧ ((mkRow df L t).ratio = none ↔
        (windowOf df L t.date = [] ∨ maxHigh (windowOf df L t.date) = 0)) := by
  cases h : windowOf df L t.date with
  | nil => simp [mkRow, h]
  | cons b bs =>
    refine ⟨by simp [mkRow, h], by simp [mkRow, h, idxmaxBar], ?_⟩
    by_cases hz : maxHigh (b :: bs) = 0
    · simp [mkRow, h, hz]
    · simp [mkRow, h, hz]

/-- C5: for a row with a non-empty lookback window, `windowMax` is the
window's maximum High `H`; when `H` is nonzero the pullback ratio equals
`(close - H) / H` exactly, and when `H = 0` the ratio is absent (the
guard yields `NA` instead of a division error). -/
theorem C5_ratio (df : List DailyBar) (L : ℤ) (t : DailyBar)
    (hw : windowOf df L t.date ≠ []) :
    (mkRow df L t).windowMax = some (maxHigh (windowOf df L t.date))
    ∧ (maxHigh (windowOf df L t.date) ≠ 0 →
        (mkRow df L t).ratio =
          some ((t.Close - maxHigh (windowOf df L t.date)) /
            maxHigh (windowOf df L t.date)))
    ∧ (maxHigh (windowOf df L t.date) = 0 → (mkRow df L t).ratio = none) := by
  cases h : windowOf df L t.date with
  | nil => exact absurd h hw
  | cons b bs =>
    refine ⟨by simp [mkRow, h], ?_, ?_⟩
    · intro hnz
      simp [mkRow, h, hnz]
    · intro hz
      simp [mkRow, h, hz]

/-- C5 witness: the statement instantiated for the series `exTwo` at the
reference bar of day 1, whose window holds the day-0 bar with High 2. -/
theorem C5_witness :
    windowOf exTwo 8 ((⟨1, 0, 1, 0, 1, 0⟩ : DailyBar).date) ≠ []
    ∧ ((mkRow exTwo 8 ⟨1, 0, 1, 0, 1, 0⟩).windowMax =
        some (maxHigh (windowOf exTwo 8 ((⟨1, 0, 1, 0, 1, 0⟩ : DailyBar).date)))
      ∧ (maxHigh (windowOf exTwo 8 ((⟨1, 0, 1, 0, 1, 0⟩ : DailyBar).date)) ≠ 0 →
          (mkRow exTwo 8 ⟨1, 0, 1, 0, 1, 0⟩).ratio =
            some (((⟨1, 0, 1, 0, 1, 0⟩ : DailyBar).Close -
                maxHigh (windowOf exTwo 8 ((⟨1, 0, 1, 0, 1, 0⟩ : DailyBar).date))) /
              maxHigh (windowOf exTwo 8 ((⟨1, 0, 1, 0, 1, 0⟩ : DailyBar).date))))
      ∧ (maxHigh (windowOf exTwo 8 ((⟨1, 0, 1, 0, 1, 0⟩ : DailyBar).date)) = 0 →
          (mkRow exTwo 8 ⟨1, 0, 1, 0, 1, 0⟩).ratio = none)) :=
  ⟨by decide, C5_ratio exTwo 8 ⟨1, 0, 1, 0, 1, 0⟩ (by decide)⟩

/-- C6: every result row has `windowStart = weekEnding - lookback`, and
the lookback slice for its reference date is exactly the sub-list of the
FULL daily series whose dates lie in the closed interval
`[weekEnding - lookback, weekEnding - 1]` (calendar-day bounds, inclusive
on both ends), taken in series order. -/
theorem C6_window (df : List DailyBar) (L : ℤ) (r : PullbackResult)
    (hr : r ∈ buildResults df L) :
    r.windowStart = r.weekEnding - L
    ∧ (∀ x, x ∈ windowOf df L r.weekEnding ↔
        (x ∈ df ∧ r.weekEnding - L ≤ x.date ∧ x.date ≤ r.weekEnding - 1))
    ∧ (windowOf df L r.weekEnding).Sublist df := by
  obtain ⟨g, hg, hmap⟩ := List.mem_filterMap.mp hr
  obtain ⟨b, hb, rfl⟩ := Option.map_eq_some'.mp hmap
  refine ⟨?_, ?_, List.filter_sublist df⟩
  · rw [mkRow_windowStart, mkRow_weekEnding]
  · intro x
    rw [mkRow_weekEnding]
    unfold windowOf
    rw [List.mem_filter]
    simp [and_assoc]

/-- C6 witness: instantiated at the one-bar series `exFri`, whose single
result row is `rowFri`. -/
theorem C6_witness :
    rowFri ∈ buildResults exFri 8
    ∧ (rowFri.windowStart = rowFri.weekEnding - 8
      ∧ (∀ x, x ∈ windowOf exFri 8 rowFri.weekEnding ↔
          (x ∈ exFri ∧ rowFri.weekEnding - 8 ≤ x.date ∧ x.date ≤ rowFri.weekEnding - 1))
      ∧ (windowOf exFri 8 rowFri.weekEnding).Sublist exFri) :=
  ⟨by decide, C6_window exFri 8 rowFri (by decide)⟩

/-- C7: for a daily series with strictly increasing dates, the unfiltered
result table has strictly increasing week indices (so exactly one row per
distinct calendar week), strictly increasing `weekEnding` dates, and a
week index occurs among the rows exactly when some bar of the series lies
in that week — weeks with no bars are never emitted. -/
theorem C7_weeks (s : List DailyBar) (L : ℤ) (hne : s ≠ [])
    (hs : s.Pairwise (fun a b => a.date < b.date)) :
    ((buildResults s L).map (fun r => weekIndex r.weekEnding)).Pairwise (· < ·)
    ∧ ((buildResults s L).map (fun r => r.weekEnding)).Pairwise (· < ·)
    ∧ (∀ w : ℤ, (∃ r ∈ buildResults s L, weekIndex r.weekEnding = w) ↔
        (∃ b ∈ s, weekIndex b.date = w)) := by
  have hrows : (buildResults s L).Pairwise
      (fun r r2 => weekIndex r.weekEnding < weekIndex r2.weekEnding) := by
    unfold buildResults
    rw [List.pairwise_filterMap]
    refine (wg_weeks_lt s hs).imp ?_
    intro g g2 hrel r hr r2 hr2
    obtain ⟨b, hb, rfl⟩ := Option.map_eq_some'.mp hr
    obtain ⟨b2, hb2, rfl⟩ := Option.map_eq_some'.mp hr2
    rw [mkRow_weekEnding, mkRow_weekEnding]
    exact hrel b (mem_of_getLast?_eq hb) b2 (mem_of_getLast?_eq hb2)
  refine ⟨List.pairwise_map.mpr hrows, ?_, ?_⟩
  · exact List.pairwise_map.mpr (hrows.imp (fun hab => lt_of_weekIndex_lt hab))
  · intro w
    constructor
    · rintro ⟨r, hr, hw⟩
      obtain ⟨g, hg, hmap⟩ := List.mem_filterMap.mp hr
      obtain ⟨b, hb, rfl⟩ := Option.map_eq_some'.mp hmap
      rw [mkRow_weekEnding] at hw
      refine ⟨b, ?_, hw⟩
      rw [← wg_flatten s]
      exact List.mem_flatten.mpr ⟨g, hg, mem_of_getLast?_eq hb⟩
    · rintro ⟨b, hb, hw⟩
      rw [← wg_flatten s] at hb
      obtain ⟨g, hg, hbg⟩ := List.mem_flatten.mp hb
      have hgne : g ≠ [] := wg_ne_nil s g hg
      have hlast : g.getLast? = some (g.getLast hgne) := List.getLast?_eq_getLast g hgne
      refine ⟨mkRow s L (g.getLast hgne), ?_, ?_⟩
      · exact List.mem_filterMap.mpr ⟨g, hg, by rw [hlast]; rfl⟩
      · rw [mkRow_weekEnding]
        obtain ⟨wk, hwall⟩ := wg_sameWeek s g hg
        rw [hwall (g.getLast hgne) (List.getLast_mem hgne), ← hwall b hbg]
        exact hw

/-- C7 witness: instantiated at the three-bar series `exWeeks` spanning
two calendar weeks. -/
theorem C7_witness :
    exWeeks ≠ []
    ∧ exWeeks.Pairwise (fun a b => a.date < b.date)
    ∧ (((buildResults exWeeks 8).map (fun r => weekIndex r.weekEnding)).Pairwise (· < ·)
      ∧ ((buildResults exWeeks 8).map (fun r => r.weekEnding)).Pairwise (· < ·)
      ∧ (∀ w : ℤ, (∃ r ∈ buildResults exWeeks 8, weekIndex r.weekEnding = w) ↔
          (∃ b ∈ exWeeks, weekIndex b.date = w))) :=
  ⟨by simp [exWeeks], by decide, C7_weeks exWeeks 8 (by simp [exWeeks]) (by decide)⟩

/-- C8: for a sorted series and a non-empty lookback window, the row's
`windowMaxDate` is the date of a window bar achieving the window maximum
High, and among all bars achieving that maximum it has the least
(chronologically earliest) date — pandas' `idxmax` takes the first
occurrence. -/
theorem C8_tiebreak (df : List DailyBar) (L : ℤ) (t : DailyBar)
    (hs : df.Pairwise (fun a b => a.date < b.date))
    (hw : windowOf df L t.date ≠ []) :
    ∃ r, idxmaxBar (windowOf df L t.date) = some r
      ∧ (mkRow df L t).windowMaxDate = some r.date
      ∧ r ∈ windowOf df L t.date
      ∧ r.High = maxHigh (windowOf df L t.date)
      ∧ (∀ x ∈ windowOf df L t.date,
          x.High = maxHigh (windowOf df L t.date) → r.date ≤ x.date) := by
  have hsw : (windowOf df L t.date).Pairwise (fun a b => a.date < b.date) :=
    List.Pairwise.filter _ hs
  cases h : windowOf df L t.date with
  | nil => exact absurd h hw
  | cons b bs =>
    rw [h] at hsw
    obtain ⟨l₁, l₂, heq, hlt, hle⟩ := foldl_pickMax_decomp bs b
    refine ⟨bs.foldl pickMax b, rfl, ?_, ?_, ?_, ?_⟩
    · simp [mkRow, h, idxmaxBar]
    · rw [heq]
      exact List.mem_append_right _ (List.mem_cons_self _ _)
    · rw [foldl_pickMax_high]
      rfl
    · intro x hx hxmax
      have hmaxeq : maxHigh (b :: bs) = (bs.foldl pickMax b).High := by
        rw [foldl_pickMax_high]
        rfl
      rw [hmaxeq] at hxmax
      have hxin : x ∈ l₁ ++ (bs.foldl pickMax b) :: l₂ := by
        rw [← heq]
        exact hx
      rcases List.mem_append.mp hxin with hx1 | hx2
      · exact absurd hxmax (ne_of_lt (hlt x hx1))
      · rcases List.mem_cons.mp hx2 with rfl | hx3
        · exact le_refl _
        · rw [heq] at hsw
          have hpa := (List.pairwise_append.mp hsw).2.1
          exact le_of_lt ((List.pairwise_cons.mp hpa).1 x hx3)

/-- C8 witness: instantiated at `exTie`, where the bars of day 0 and day 1
both carry the maximal High 5 and the returned date is day 0. -/
theorem C8_witness :
    exTie.Pairwise (fun a b => a.date < b.date)
    ∧ windowOf exTie 8 ((⟨8, 0, 1, 0, 4, 0⟩ : DailyBar).date) ≠ []
    ∧ (∃ r, idxmaxBar (windowOf exTie 8 ((⟨8, 0, 1, 0, 4, 0⟩ : DailyBar).date)) = some r
        ∧ (mkRow exTie 8 ⟨8, 0, 1, 0, 4, 0⟩).windowMaxDate = some r.date
        ∧ r ∈ windowOf exTie 8 ((⟨8, 0, 1, 0, 4, 0⟩ : DailyBar).date)
        ∧ r.High = maxHigh (windowOf exTie 8 ((⟨8, 0, 1, 0, 4, 0⟩ : DailyBar).date))
        ∧ (∀ x ∈ windowOf exTie 8 ((⟨8, 0, 1, 0, 4, 0⟩ : DailyBar).date),
            x.High = maxHigh (windowOf exTie 8 ((⟨8, 0, 1, 0, 4, 0⟩ : DailyBar).date)) →
              r.date ≤ x.date)) :=
  ⟨by decide, by decide, C8_tiebreak exTie 8 ⟨8, 0, 1, 0, 4, 0⟩ (by decide) (by decide)⟩

/-- C9: when every price of a non-empty price series is the same value
`c`, the 50 bin edges are all equal to `c`, every observation digitizes
out of range, and the accumulated bin volumes are 49 zeros: the entire
input volume is silently discarded. -/
theorem C9_constant (prices volumes : List ℚ) (c : ℚ) (hne : prices ≠ [])
    (hall : ∀ p ∈ prices, p = c) :
    bins prices = List.replicate 50 c
    ∧ vp_volumes prices volumes = List.replicate 49 0
    ∧ (vp_volumes prices volumes).sum = 0 := by
  refine ⟨bins_const hne hall, ?_, ?_⟩
  · have h := vp_volumes_const volumes hne hall
    simpa using h
  · rw [vp_volumes_const volumes hne hall]
    simp

/-- C9 witness: instantiated at the constant price series `[5, 5]` with
volumes `[3, 4]`. -/
theorem C9_witness :
    ([(5:ℚ), 5] ≠ ([] : List ℚ))
    ∧ (∀ p ∈ [(5:ℚ), 5], p = 5)
    ∧ (bins [5, 5] = List.replicate 50 5
      ∧ vp_volumes [5, 5] [3, 4] = List.replicate 49 0
      ∧ (vp_volumes [5, 5] [3, 4]).sum = 0) :=
  ⟨by simp, by decide, C9_constant [5, 5] [3, 4] 5 (by simp) (by decide)⟩

/-- C10: for a sorted series, every emitted row's `weekEnding` equals the
date of the chronologically last bar of its week bucket — an actual bar
present in the input series, not the grouper's synthetic Sunday label —
and the row's `close` equals that same bar's Close. -/
theorem C10_weekEnding (s : List DailyBar) (L : ℤ)
    (hs : s.Pairwise (fun a b => a.date < b.date)) :
    ∀ r ∈ buildResults s L, ∃ g ∈ weekly_groups s, ∃ b,
      g.getLast? = some b ∧ r.weekEnding = b.date ∧ r.close = b.Close
      ∧ b ∈ s ∧ (∀ x ∈ g, x.date ≤ b.date) := by
  intro r hr
  obtain ⟨g, hg, hmap⟩ := List.mem_filterMap.mp hr
  obtain ⟨b, hb, rfl⟩ := Option.map_eq_some'.mp hmap
  refine ⟨g, hg, b, hb, mkRow_weekEnding s L b, mkRow_close s L b, ?_, ?_⟩
  · rw [← wg_flatten s]
    exact List.mem_flatten.mpr ⟨g, hg, mem_of_getLast?_eq hb⟩
  · exact last_date_max g b (wg_groups_sorted s hs g hg) hb

/-- C10 witness: instantiated at the three-bar series `exWeeks`. -/
theorem C10_witness :
    exWeeks.Pairwise (fun a b => a.date < b.date)
    ∧ (∀ r ∈ buildResults exWeeks 8, ∃ g ∈ weekly_groups exWeeks, ∃ b,
        g.getLast? = some b ∧ r.weekEnding = b.date ∧ r.close = b.Close
        ∧ b ∈ exWeeks ∧ (∀ x ∈ g, x.date ≤ b.date)) :=
  ⟨by decide, C10_weekEnding exWeeks 8 (by decide)⟩
